import Mathlib

/-!
# Verification of `cfrun` (competitive-programming test runner)

Shallow embedding of `cfrun.py` — the toolchain registry (`languages`,
`get_commands`, `is_file_type_known`), the test-corpus codec
(`save_tests`, `read_tests`), the verification loop (`run_tests`) and the
watch-mode change filter (`is_ignored`, `handle_file_change`) — together
with theorems settling the specification's claims about them.

Text is modelled as `List Char`.  Python's text-mode file iteration is
modelled by `lines` (pieces that keep their terminating `'\n'`); universal
newline translation is outside the model, so texts are taken as the
already-translated `'\n'`-separated content the Python loop actually sees.
-/

deriving instance DecidableEq for Except

namespace Cfrun

abbrev Chars := List Char

/-- Convenience: the character list of a string literal. -/
def chars (s : String) : Chars := s.toList

/-- Python's `str.strip()` whitespace set: `' '`, `'\t'`, `'\n'`, `'\r'`,
`'\x0b'`, `'\x0c'`. -/
def wsB (c : Char) : Bool :=
  c = ' ' || c = '\t' || c = '\n' || c = '\r' || c = '\x0b' || c = '\x0c'

/-- Remove trailing Python whitespace (`str.rstrip()`). -/
def rstrip (s : Chars) : Chars := (s.reverse.dropWhile wsB).reverse

/-- Python's `str.strip()`: remove leading and trailing whitespace. -/
def strip (s : Chars) : Chars := (rstrip s).dropWhile wsB

/-- Prepend a character to the first piece of a line decomposition
(creating the piece when there is none). -/
def consHead (c : Char) : List Chars → List Chars
  | [] => [[c]]
  | l :: ls => (c :: l) :: ls

/-- Split a text into the pieces Python's `for line in file` yields: each
piece keeps its terminating `'\n'`; a final piece without `'\n'` is kept;
the empty text yields no pieces. -/
def lines : Chars → List Chars
  | [] => []
  | c :: rest =>
    if c = '\n' then ['\n'] :: lines rest
    else consHead c (lines rest)

/-- `Test = namedtuple('Test', 'name input output')` (cfrun.py line 50). -/
structure Test where
  name : Chars
  input : Chars
  output : Chars
deriving DecidableEq

/-- The block marker `'### '` that begins a test case in the sidecar file. -/
def nameMarker : Chars := ['#', '#', '#', ' ']

/-- The output marker `'# вывод'` that separates input from expected output. -/
def outMarker : Chars := ['#', ' ', 'в', 'ы', 'в', 'о', 'д']

/-- A single `'#'`, the comment marker checked by `read_tests`. -/
def hashMarker : Chars := ['#']

/-- The loop state of `read_tests` (cfrun.py lines 80–98): the accumulated
test list and the pending `name` / `input` / `output` / `in_output`. -/
structure PState where
  tests : List Test
  name : Chars
  input : Chars
  output : Chars
  inOutput : Bool

/-- `if name: tests.append(Test(name, input.strip(), output.strip()))` —
the flush performed at a new `'### '` marker and at end of file. -/
def flush (st : PState) : List Test :=
  if st.name ≠ [] then st.tests ++ [⟨st.name, strip st.input, strip st.output⟩]
  else st.tests

/-- One iteration of the `for line in test_file` loop of `read_tests`
(cfrun.py lines 83–96), transcribed branch for branch. -/
def processLine (st : PState) (line : Chars) : PState :=
  if nameMarker.isPrefixOf line then
    { tests := flush st, name := strip (line.drop 4), input := [], output := [],
      inOutput := false }
  else if outMarker.isPrefixOf line then
    { st with inOutput := true }
  else if st.name ≠ [] ∧ hashMarker.isPrefixOf line = false then
    if st.inOutput then { st with output := st.output ++ line }
    else { st with input := st.input ++ line }
  else st

/-- The initial loop state: `name = input = output = ''`, no tests. -/
def initState : PState := ⟨[], [], [], [], false⟩

/-- The pure parsing core of `read_tests`: fold the loop over the file's
lines, then perform the final flush (cfrun.py lines 97–98). -/
def parseTests (text : Chars) : List Test :=
  flush (List.foldl processLine initState (lines text))

/-- `read_tests` (cfrun.py lines 78–101).  The filesystem is passed as the
optional content of the sidecar file: `none` models a missing file, whose
`FileNotFoundError` the function catches, returning Python's `None`. -/
def read_tests (file : Option Chars) : Option (List Test) :=
  match file with
  | none => none
  | some text => some (parseTests text)

/-- The text `save_tests` writes for one test (cfrun.py line 76):
`f"### {test.name}\n{test.input}\n# вывод\n{test.output}\n\n"`. -/
def encodeTest (t : Test) : Chars :=
  nameMarker ++ t.name ++ ['\n'] ++ t.input ++ ['\n'] ++ outMarker ++ ['\n']
    ++ t.output ++ ['\n', '\n']

/-- `save_tests` (cfrun.py lines 73–76): the full text written to the
sidecar file for a test sequence. -/
def save_tests (tests : List Test) : Chars :=
  (tests.map encodeTest).flatten

/-! ## Paths and the toolchain registry -/

/-- `pathlib`'s `Path(p).name`: the part of the path after the last `'/'`.
Paths are taken as already-normalized strings (no trailing slash, no `'.'`
or `'..'` components), which is what the CLI and watchdog hand the code. -/
def basename (p : Chars) : Chars := (p.reverse.takeWhile (fun c => c ≠ '/')).reverse

/-- `pathlib`'s `Path(p).suffix`: the final `'.'`-suffix of the name, and
`[]` when the name has no dot, starts with its only dot (hidden file), or
ends with the dot — `name[i:]` for `i = name.rfind('.')` when
`0 < i < len(name) - 1`, else `''`. -/
def pySuffix (p : Chars) : Chars :=
  let n := basename p
  let after := (n.reverse.takeWhile (fun c => c ≠ '.')).reverse
  if after.length = n.length then []
  else if n.length - after.length - 1 = 0 then []
  else if after = [] then []
  else '.' :: after

/-- `Path(p).suffix[1:]`, the registry key used by `get_commands` and
`is_file_type_known` (cfrun.py lines 53 and 56). -/
def extOf (p : Chars) : Chars := (pySuffix p).drop 1

/-- `pathlib`'s `Path(p).with_suffix(s)`: drop the current suffix of the
final component and append `s`. -/
def withSuffix (p s : Chars) : Chars :=
  p.take (p.length - (pySuffix p).length) ++ s

/-- One entry of the `languages` table (cfrun.py lines 15–48): either a bare
interpreter name (a string in the source) or, for compiled languages, a
function of the source path yielding the `[run_command, compile_command]`
pair (a callable in the source). -/
inductive ToolEntry
  | interp (cmd : Chars)
  | compiled (f : Chars → Chars × Chars)

/-- The `languages` dict (cfrun.py lines 15–48), keyed by extension;
`none` models a key absent from the dict. -/
def languages (ext : Chars) : Option ToolEntry :=
  if ext = chars "c" then
    some (.compiled fun src =>
      (withSuffix src [],
       chars "gcc --std=gnu11 -lm -o " ++ withSuffix src [] ++ chars " " ++ src))
  else if ext = chars "cpp" then
    some (.compiled fun src =>
      (withSuffix src [],
       chars "g++ " ++ src ++ chars " -lm -o " ++ withSuffix src []))
  else if ext = chars "cs" then
    some (.compiled fun src => (withSuffix src (chars ".exe"), chars "mcs " ++ src))
  else if ext = chars "d" then
    some (.compiled fun src => (withSuffix src [], chars "dmd " ++ src))
  else if ext = chars "js" then some (.interp (chars "node"))
  else if ext = chars "kt" then
    some (.compiled fun src =>
      (chars "java -jar " ++ withSuffix src (chars ".jar"),
       chars "kotlinc " ++ src ++ chars " -include-runtime -d "
         ++ withSuffix src (chars ".jar")))
  else if ext = chars "pas" then
    some (.compiled fun src => (withSuffix src [], chars "fpc " ++ src))
  else if ext = chars "php" then some (.interp (chars "php"))
  else if ext = chars "py" then some (.interp (chars "python3"))
  else if ext = chars "rb" then some (.interp (chars "ruby"))
  else if ext = chars "scala" then
    some (.compiled fun src => (chars "scala " ++ withSuffix src [], chars "scalac " ++ src))
  else none

/-- `is_file_type_known` (cfrun.py lines 52–53). -/
def is_file_type_known (p : Chars) : Bool := (languages (extOf p)).isSome

/-- The Python exceptions the embedding tracks. -/
inductive PyErr
  | keyError
deriving DecidableEq

/-- `get_commands` (cfrun.py lines 55–60).  Indexing `languages` with an
unregistered extension raises `KeyError`, modelled as `Except.error`.  A
callable entry returns its `[run, compile]` pair; a string entry returns
`(entry + ' ' + path, None)`. -/
def get_commands (p : Chars) : Except PyErr (Chars × Option Chars) :=
  match languages (extOf p) with
  | none => .error .keyError
  | some (.interp cmd) => .ok (cmd ++ ' ' :: p, none)
  | some (.compiled f) => .ok ((f p).1, some (f p).2)

/-! ## The verification loop -/

/-- Outcome of one `subprocess.run(run_cmd, input=..., timeout=2)`:
either the process finishes with the given stdout, or the 2-second timeout
elapses — in which case `subprocess.run` raises `TimeoutExpired`. -/
inductive ExecRes
  | done (out : Chars)
  | timeout
deriving DecidableEq

/-- Exceptions that can escape `run_tests`. -/
inductive RunErr
  | timeoutExpired
  | keyError
  | scrapeError
deriving DecidableEq

/-- What `run_tests` prints per executed test: `OK`, or the
expected/actual mismatch report (cfrun.py lines 137–143). -/
inductive TestEvent
  | pass (name : Chars)
  | mismatch (name : Chars) (expected : Chars) (actual : Chars)
deriving DecidableEq

/-- The value `run_tests` produces when it does not raise: the per-test
report and the Python return value (`none` models `return` / `None` on
compile failure, `some true` the final `return True`). -/
structure RunReport where
  events : List TestEvent
  retval : Option Bool
deriving DecidableEq

/-- The environment of one `run_tests` call: the sidecar file's content
(`none` = missing file), the result of the scraping fallback (`none` = the
network/parse pipeline raises), the compile subprocess's exit code, and
the stdout/timeout outcome of the `i`-th test subprocess. -/
structure Env where
  sidecar : Option Chars
  scraped : Option (List Test)
  compileExit : Int
  exec : Nat → ExecRes

/-- `get_tests` (cfrun.py lines 103–114): use the sidecar corpus when the
file exists, otherwise scrape (which may raise — uncaught); the
`save_tests` write-back does not affect the returned value. -/
def get_tests (env : Env) : Except RunErr (List Test) :=
  match read_tests env.sidecar with
  | some ts => .ok ts
  | none =>
    match env.scraped with
    | none => .error .scrapeError
    | some ts => .ok ts

/-- The `for test in get_tests(...)` loop of `run_tests` (cfrun.py lines
125–144): run the `i`-th subprocess, compare stripped stdout with the
stored expected output; on match print OK and continue, on mismatch print
the diff and `break`; a timeout raises `TimeoutExpired` (uncaught). -/
def runLoop (exec : Nat → ExecRes) : Nat → List Test → Except RunErr (List TestEvent)
  | _, [] => .ok []
  | i, t :: rest =>
    match exec i with
    | .timeout => .error .timeoutExpired
    | .done raw =>
      if strip raw = t.output then
        match runLoop exec (i + 1) rest with
        | .error e => .error e
        | .ok evs => .ok (.pass t.name :: evs)
      else .ok [.mismatch t.name t.output (strip raw)]

/-- The part of `run_tests` after a successful (or absent) compile step:
fetch the corpus and run the loop, then `return True`. -/
def runBody (env : Env) : Except RunErr RunReport :=
  match get_tests env with
  | .error e => .error e
  | .ok ts =>
    match runLoop env.exec 0 ts with
    | .error e => .error e
    | .ok evs => .ok ⟨evs, some true⟩

/-- `run_tests` (cfrun.py lines 116–145): resolve commands (`KeyError`
propagates), compile if a compile command is present — a non-zero exit
returns `None` — then run the loop and `return True`. -/
def run_tests (env : Env) (p : Chars) : Except RunErr RunReport :=
  match get_commands p with
  | .error _ => .error .keyError
  | .ok (_, compile_cmd) =>
    match compile_cmd with
    | some _ => if env.compileExit ≠ 0 then .ok ⟨[], none⟩ else runBody env
    | none => runBody env

/-! ## The watch-mode change filter -/

/-- `is_ignored` (cfrun.py lines 147–148):
`path.name.startswith('.') or '#' in path.name`. -/
def is_ignored (p : Chars) : Bool :=
  ['.'].isPrefixOf (basename p) || (basename p).elem '#'

/-- `handle_file_change` (cfrun.py lines 150–156).  The
`if not path.is_absolute:` branch is dead code — `is_absolute` is a bound
method, always truthy — so the path is used as received.  The result is
`some` of the `run_tests` outcome when the engine is invoked, `none` when
the notification is discarded. -/
def handle_file_change (env : Env) (p : Chars) : Option (Except RunErr RunReport) :=
  if is_ignored p = false ∧ is_file_type_known p = true then some (run_tests env p)
  else none

/-- The one-shot CLI dispatch in `main` (cfrun.py lines 188–191): run the
engine for a known file type, otherwise print the "don't know this file
type" notice and exit. -/
inductive CliResult
  | unknownFileType
  | ran (r : Except RunErr RunReport)
deriving DecidableEq

/-- `main`'s non-watch branch (cfrun.py lines 188–191). -/
def one_shot (env : Env) (p : Chars) : CliResult :=
  if is_file_type_known p then .ran (run_tests env p) else .unknownFileType

/-! ## Specification-side predicates -/

/-- No character `'#'` directly follows a `'\n'` — i.e. no line other than
the first one begins with `'#'`. -/
def chk : Chars → Bool
  | a :: b :: rest => if a = '\n' ∧ b = '#' then false else chk (b :: rest)
  | _ => true

/-- The hypotheses under which the sidecar codec round-trips: a non-empty,
trimmed, newline- and carriage-return-free name, and trimmed,
carriage-return-free bodies none of whose lines begins with `'#'` (which
also rules out lines matching either marker). -/
def goodTest (t : Test) : Prop :=
  t.name ≠ [] ∧ strip t.name = t.name ∧ '\n' ∉ t.name ∧ '\r' ∉ t.name ∧
  strip t.input = t.input ∧ strip t.output = t.output ∧
  '\r' ∉ t.input ∧ '\r' ∉ t.output ∧
  (∀ l ∈ lines (t.input ++ ['\n']), hashMarker.isPrefixOf l = false) ∧
  (∀ l ∈ lines (t.output ++ ['\n']), hashMarker.isPrefixOf l = false)

instance (t : Test) : Decidable (goodTest t) := by
  unfold goodTest
  infer_instance

/-- The stripped stdout of a subprocess outcome (`none` on timeout): the
quantity `run_tests` compares against the expected output. -/
def stripRes : ExecRes → Option Chars
  | .done o => some (strip o)
  | .timeout => none

/-- What decoding guarantees of every produced test (claim C10, amended):
a non-empty trimmed name, trimmed bodies, and no line **after the first**
of either body beginning with `'#'` — `chk` forbids `'#'` right after a
`'\n'`.  (The first line can begin with `'#'` when leading whitespace was
stripped, which is why the claim as stated fails.) -/
def decodedOk (t : Test) : Prop :=
  t.name ≠ [] ∧ strip t.name = t.name ∧ strip t.input = t.input ∧
  strip t.output = t.output ∧ chk t.input = true ∧ chk t.output = true

/-- The loop invariant of `read_tests` that yields `decodedOk`. -/
def Inv (st : PState) : Prop :=
  (∀ t ∈ st.tests, decodedOk t) ∧ strip st.name = st.name ∧
  chk st.input = true ∧ chk st.output = true

/-- Parser states that differ only in an initial segment `a` of the
accumulated test list — and possibly in `in_output` while no block is open
(`name` empty and nothing accumulated). -/
def Rel (a : List Test) (st st' : PState) : Prop :=
  st.name = st'.name ∧ st.input = st'.input ∧ st.output = st'.output ∧
  st.tests = a ++ st'.tests ∧
  (st.inOutput = st'.inOutput ∨ (st.name = [] ∧ st.input = [] ∧ st.output = []))

/-! ## Generic list lemmas -/

theorem dropWhile_append_all {p : Char → Bool} {a : Chars} (b : Chars)
    (h : ∀ c ∈ a, p c = true) : (a ++ b).dropWhile p = b.dropWhile p := by
  induction a with
  | nil => rfl
  | cons c a ih =>
    simp only [List.cons_append, List.dropWhile_cons, h c (by simp)]
    exact ih fun x hx => h x (by simp [hx])

theorem dropWhile_all {p : Char → Bool} {a : Chars}
    (h : ∀ c ∈ a, p c = true) : a.dropWhile p = [] := by
  have := dropWhile_append_all (p := p) [] h
  simpa using this

theorem dropWhile_head_false {p : Char → Bool} {l : Chars} {c : Char}
    (h : l.head? = some c) (hc : p c = false) : l.dropWhile p = l := by
  cases l with
  | nil => rfl
  | cons a t =>
    simp only [List.head?_cons, Option.some.injEq] at h
    subst h
    simp [List.dropWhile_cons, hc]

theorem head?_dropWhile {p : Char → Bool} {l : Chars} {c : Char}
    (h : (l.dropWhile p).head? = some c) : p c = false := by
  induction l with
  | nil => simp [List.dropWhile] at h
  | cons a t ih =>
    rw [List.dropWhile_cons] at h
    by_cases hp : p a = true
    · exact ih (by simpa [hp] using h)
    · rw [Bool.not_eq_true] at hp
      rw [hp] at h
      simp only [Bool.false_eq_true, if_false, List.head?_cons, Option.some.injEq] at h
      subst h
      exact hp

theorem takeWhile_append_all {p : Char → Bool} {a : Chars} (b : Chars)
    (h : ∀ c ∈ a, p c = true) : (a ++ b).takeWhile p = a ++ b.takeWhile p := by
  induction a with
  | nil => rfl
  | cons c a ih =>
    simp only [List.cons_append, List.takeWhile_cons, h c (by simp)]
    simp [ih fun x hx => h x (by simp [hx])]

theorem takeWhile_cons_false {p : Char → Bool} {c : Char} (l : Chars)
    (h : p c = false) : (c :: l).takeWhile p = [] := by
  simp [List.takeWhile_cons, h]

theorem getLast?_suffix {l₁ l₂ : Chars} (h : l₁ <:+ l₂) (hne : l₁ ≠ []) :
    l₂.getLast? = l₁.getLast? := by
  obtain ⟨t, ht⟩ := h
  subst ht
  rw [← List.head?_reverse, ← List.head?_reverse, List.reverse_append]
  cases hr : l₁.reverse with
  | nil => exact absurd (by simpa using hr) hne
  | cons a r => simp

/-! ## Properties of `strip` -/

theorem rstrip_append_ws {w : Chars} (s : Chars) (h : ∀ c ∈ w, wsB c = true) :
    rstrip (s ++ w) = rstrip s := by
  unfold rstrip
  rw [List.reverse_append, dropWhile_append_all]
  intro c hc
  exact h c (by simpa using hc)

theorem strip_append_ws {w : Chars} (s : Chars) (h : ∀ c ∈ w, wsB c = true) :
    strip (s ++ w) = strip s := by
  unfold strip
  rw [rstrip_append_ws s h]

theorem strip_allws {s : Chars} (h : ∀ c ∈ s, wsB c = true) : strip s = [] := by
  have h1 : s.reverse.dropWhile wsB = [] :=
    dropWhile_all fun c hc => h c (by simpa using hc)
  unfold strip rstrip
  rw [h1]
  rfl

theorem rstrip_prefix (s : Chars) : rstrip s <+: s := by
  obtain ⟨t, ht⟩ := List.dropWhile_suffix (l := s.reverse) wsB
  refine ⟨t.reverse, ?_⟩
  have h2 := congrArg List.reverse ht
  simpa [rstrip, List.reverse_append, List.reverse_reverse] using h2

theorem strip_suffix_rstrip (s : Chars) : strip s <:+ rstrip s :=
  List.dropWhile_suffix wsB

theorem strip_head_not_ws {s : Chars} {c : Char} (h : (strip s).head? = some c) :
    wsB c = false := head?_dropWhile h

theorem strip_getLast_not_ws {s : Chars} {c : Char} (h : (strip s).getLast? = some c) :
    wsB c = false := by
  have hne : strip s ≠ [] := by
    intro hnil
    rw [hnil] at h
    cases h
  have h1 : (rstrip s).getLast? = (strip s).getLast? :=
    getLast?_suffix (strip_suffix_rstrip s) hne
  have h3 := List.head?_reverse (rstrip s)
  have h4 : (rstrip s).reverse = s.reverse.dropWhile wsB := by
    unfold rstrip
    rw [List.reverse_reverse]
  rw [h4] at h3
  exact head?_dropWhile (h3.trans (h1.trans h))

theorem strip_idem (s : Chars) : strip (strip s) = strip s := by
  by_cases hn : strip s = []
  · rw [hn]
    rfl
  · obtain ⟨a, ha⟩ : ∃ a, (strip s).head? = some a := by
      cases hq : strip s with
      | nil => exact absurd hq hn
      | cons x xs => exact ⟨x, rfl⟩
    obtain ⟨c, hc⟩ : ∃ c, (strip s).getLast? = some c := by
      cases hq : strip s with
      | nil => exact absurd hq hn
      | cons x xs =>
        exact ⟨(x :: xs).getLast (by simp), List.getLast?_eq_getLast _ (by simp)⟩
    have hrev : ((strip s).reverse).head? = some c := by
      rw [List.head?_reverse]
      exact hc
    have hr : rstrip (strip s) = strip s := by
      unfold rstrip
      rw [dropWhile_head_false hrev (strip_getLast_not_ws hc), List.reverse_reverse]
    show List.dropWhile wsB (rstrip (strip s)) = strip s
    rw [hr]
    exact dropWhile_head_false ha (strip_head_not_ws ha)

/-! ## Properties of `lines` -/

theorem lines_cons (c : Char) (rest : Chars) :
    lines (c :: rest) =
      if c = '\n' then ['\n'] :: lines rest else consHead c (lines rest) := rfl

theorem consHead_ne_nil (c : Char) (L : List Chars) : consHead c L ≠ [] := by
  cases L <;> simp [consHead]

theorem lines_ne_nil {s : Chars} (h : s ≠ []) : lines s ≠ [] := by
  cases s with
  | nil => exact absurd rfl h
  | cons c rest =>
    rw [lines_cons]
    by_cases hc : c = '\n'
    · simp [hc]
    · rw [if_neg hc]
      exact consHead_ne_nil c _

theorem consHead_append {c : Char} {L : List Chars} (M : List Chars) (h : L ≠ []) :
    consHead c (L ++ M) = consHead c L ++ M := by
  cases L with
  | nil => exact absurd rfl h
  | cons l ls => simp [consHead]

theorem lines_append {a : Chars} (b : Chars) (h : a.getLast? = some '\n') :
    lines (a ++ b) = lines a ++ lines b := by
  induction a with
  | nil => cases h
  | cons c a ih =>
    cases a with
    | nil =>
      have hc : c = '\n' := by simpa using h
      subst hc
      rw [List.singleton_append, lines_cons, if_pos rfl]
      rfl
    | cons d a' =>
      have h' : (d :: a').getLast? = some '\n' := by
        rw [← List.getLast?_cons_cons (a := c)]
        exact h
      have ihh := ih h'
      rw [List.cons_append, lines_cons, lines_cons, ihh]
      by_cases hc : c = '\n'
      · simp [hc]
      · rw [if_neg hc, if_neg hc]
        exact consHead_append _ (lines_ne_nil (by simp))

theorem lines_append' {a : Chars} (b : Chars) (h : a = [] ∨ a.getLast? = some '\n') :
    lines (a ++ b) = lines a ++ lines b := by
  cases h with
  | inl h => subst h; rfl
  | inr h => exact lines_append b h

theorem lines_single {x : Chars} (h : '\n' ∉ x) : lines (x ++ ['\n']) = [x ++ ['\n']] := by
  induction x with
  | nil => rfl
  | cons c x ih =>
    have hc : c ≠ '\n' := fun hc => h (by simp [hc])
    rw [List.cons_append, lines_cons, if_neg hc, ih fun hx => h (by simp [hx])]
    rfl

theorem lines_flatten (s : Chars) : (lines s).flatten = s := by
  induction s with
  | nil => rfl
  | cons c rest ih =>
    rw [lines_cons]
    by_cases hc : c = '\n'
    · subst hc
      simp [ih]
    · rw [if_neg hc]
      cases hl : lines rest with
      | nil =>
        have hr : rest = [] := by
          by_contra hne
          exact lines_ne_nil hne hl
        simp [consHead, hr]
      | cons l ls =>
        rw [hl] at ih
        simp only [consHead, List.flatten_cons] at ih ⊢
        simp [← ih]

theorem mem_lines_ne_nil {s : Chars} : ∀ l ∈ lines s, l ≠ [] := by
  induction s with
  | nil => intro l hl; cases hl
  | cons c rest ih =>
    intro l hl
    rw [lines_cons] at hl
    by_cases hc : c = '\n'
    · rw [if_pos hc] at hl
      cases List.mem_cons.mp hl with
      | inl h => subst h; simp
      | inr h => exact ih l h
    · rw [if_neg hc] at hl
      cases hq : lines rest with
      | nil =>
        rw [hq] at hl
        simp only [consHead, List.mem_singleton] at hl
        subst hl
        simp
      | cons m ms =>
        rw [hq] at hl
        cases List.mem_cons.mp hl with
        | inl h => subst h; simp
        | inr h => exact ih l (by rw [hq]; exact List.mem_cons_of_mem m h)

theorem mem_lines_nl {s : Chars} : ∀ l ∈ lines s, '\n' ∉ l.dropLast := by
  induction s with
  | nil => intro l hl; cases hl
  | cons c rest ih =>
    intro l hl
    rw [lines_cons] at hl
    by_cases hc : c = '\n'
    · rw [if_pos hc] at hl
      cases List.mem_cons.mp hl with
      | inl h => subst h; simp
      | inr h => exact ih l h
    · rw [if_neg hc] at hl
      cases hq : lines rest with
      | nil =>
        rw [hq] at hl
        simp only [consHead, List.mem_singleton] at hl
        subst hl
        simp
      | cons m ms =>
        rw [hq] at hl
        cases List.mem_cons.mp hl with
        | inl h =>
          subst h
          have hm : m ≠ [] := mem_lines_ne_nil m (by rw [hq]; exact List.mem_cons_self m ms)
          cases m with
          | nil => exact absurd rfl hm
          | cons x xs =>
            show ('\n' : Char) ∉ (c :: x :: xs).dropLast
            intro hmem
            rw [List.dropLast_cons₂] at hmem
            cases List.mem_cons.mp hmem with
            | inl h => exact hc h.symm
            | inr h =>
              exact ih (x :: xs) (by rw [hq]; exact List.mem_cons_self _ ms)
                (by simpa using h)
        | inr h => exact ih l (by rw [hq]; exact List.mem_cons_of_mem m h)

/-! ## Marker lemmas -/

theorem isPre_append_self (a r : Chars) : a.isPrefixOf (a ++ r) = true := by
  rw [List.isPrefixOf_iff_prefix]
  exact List.prefix_append a r

theorem nameMarker_not_isPre_out (r : Chars) :
    nameMarker.isPrefixOf (outMarker ++ r) = false := by
  by_contra hb
  rw [Bool.not_eq_false] at hb
  obtain ⟨t, ht⟩ := List.isPrefixOf_iff_prefix.mp hb
  simp [nameMarker, outMarker] at ht

theorem hash_of_nameMarker {l : Chars} (h : nameMarker.isPrefixOf l = true) :
    hashMarker.isPrefixOf l = true := by
  cases l with
  | nil => cases h
  | cons c l' =>
    have h' : (('#' == c) && List.isPrefixOf ['#', '#', ' '] l') = true := h
    have hc : c = '#' := (eq_of_beq (Bool.and_eq_true _ _ |>.mp h').1).symm
    subst hc
    rw [List.isPrefixOf_iff_prefix]
    exact ⟨l', rfl⟩

theorem hash_of_outMarker {l : Chars} (h : outMarker.isPrefixOf l = true) :
    hashMarker.isPrefixOf l = true := by
  cases l with
  | nil => cases h
  | cons c l' =>
    have h' : (('#' == c) && List.isPrefixOf [' ', 'в', 'ы', 'в', 'о', 'д'] l') = true := h
    have hc : c = '#' := (eq_of_beq (Bool.and_eq_true _ _ |>.mp h').1).symm
    subst hc
    rw [List.isPrefixOf_iff_prefix]
    exact ⟨l', rfl⟩

/-! ## Single steps of the `read_tests` loop -/

theorem flush_pos {st : PState} (h : st.name ≠ []) :
    flush st = st.tests ++ [⟨st.name, strip st.input, strip st.output⟩] := by
  simp [flush, h]

theorem flush_neg {st : PState} (h : st.name = []) : flush st = st.tests := by
  simp [flush, h]

theorem mark_step (st : PState) (r : Chars) :
    processLine st (nameMarker ++ r) = ⟨flush st, strip r, [], [], false⟩ := by
  have hd : (nameMarker ++ r).drop 4 = r := List.drop_left nameMarker r
  simp [processLine, isPre_append_self, hd]

theorem out_step (st : PState) (r : Chars) :
    processLine st (outMarker ++ r) = { st with inOutput := true } := by
  simp [processLine, nameMarker_not_isPre_out, isPre_append_self]

theorem body_step {st : PState} {l : Chars} (hname : st.name ≠ [])
    (hhash : hashMarker.isPrefixOf l = false) :
    processLine st l =
      if st.inOutput then { st with output := st.output ++ l }
      else { st with input := st.input ++ l } := by
  have h1 : nameMarker.isPrefixOf l = false := by
    by_contra hb
    rw [Bool.not_eq_false] at hb
    rw [hash_of_nameMarker hb] at hhash
    cases hhash
  have h2 : outMarker.isPrefixOf l = false := by
    by_contra hb
    rw [Bool.not_eq_false] at hb
    rw [hash_of_outMarker hb] at hhash
    cases hhash
  simp only [processLine, h1, h2, Bool.false_eq_true, if_false]
  rw [if_pos ⟨hname, hhash⟩]

theorem foldl_body_in {L : List Chars} {a : List Test} {n : Chars} (i o : Chars)
    (hname : n ≠ []) (hL : ∀ l ∈ L, hashMarker.isPrefixOf l = false) :
    List.foldl processLine ⟨a, n, i, o, false⟩ L = ⟨a, n, i ++ L.flatten, o, false⟩ := by
  induction L generalizing i with
  | nil => simp
  | cons l L ih =>
    rw [List.foldl_cons, @body_step ⟨a, n, i, o, false⟩ l hname (hL l (by simp))]
    have hL' : ∀ x ∈ L, hashMarker.isPrefixOf x = false :=
      fun x hx => hL x (List.mem_cons_of_mem l hx)
    rw [if_neg (by simp : ¬((⟨a, n, i, o, false⟩ : PState).inOutput = true)), ih (i ++ l) hL']
    simp [List.append_assoc]

theorem foldl_body_out {L : List Chars} {a : List Test} {n : Chars} (i o : Chars)
    (hname : n ≠ []) (hL : ∀ l ∈ L, hashMarker.isPrefixOf l = false) :
    List.foldl processLine ⟨a, n, i, o, true⟩ L = ⟨a, n, i, o ++ L.flatten, true⟩ := by
  induction L generalizing o with
  | nil => simp
  | cons l L ih =>
    rw [List.foldl_cons, @body_step ⟨a, n, i, o, true⟩ l hname (hL l (by simp))]
    have hL' : ∀ x ∈ L, hashMarker.isPrefixOf x = false :=
      fun x hx => hL x (List.mem_cons_of_mem l hx)
    rw [if_pos (by simp : (⟨a, n, i, o, true⟩ : PState).inOutput = true), ih (o ++ l) hL']
    simp [List.append_assoc]

/-! ## The encoded form of one test, as seen by `read_tests` -/

theorem encodeTest_assoc (t : Test) :
    encodeTest t =
      (nameMarker ++ t.name ++ ['\n']) ++
        ((t.input ++ ['\n']) ++ ((outMarker ++ ['\n']) ++ ((t.output ++ ['\n']) ++ ['\n']))) := by
  simp [encodeTest, List.append_assoc]

theorem encodeTest_getLast (t : Test) : (encodeTest t).getLast? = some '\n' := by
  rw [show encodeTest t =
      (nameMarker ++ t.name ++ ['\n'] ++ t.input ++ ['\n'] ++ outMarker ++ ['\n']
        ++ t.output ++ ['\n']) ++ ['\n'] from by simp [encodeTest, List.append_assoc]]
  exact List.getLast?_concat _

theorem lines_encodeTest {t : Test} (ht : goodTest t) :
    lines (encodeTest t) =
      [nameMarker ++ t.name ++ ['\n']] ++
        (lines (t.input ++ ['\n']) ++
          ([outMarker ++ ['\n']] ++ (lines (t.output ++ ['\n']) ++ [['\n']]))) := by
  obtain ⟨hn1, hn2, hn3, hn4, hi, ho, hic, hoc, hih, hoh⟩ := ht
  have hnm : '\n' ∉ nameMarker ++ t.name := by
    intro hmem
    rcases List.mem_append.mp hmem with h | h
    · simp [nameMarker] at h
    · exact hn3 h
  have hom : '\n' ∉ outMarker := by simp [outMarker]
  have hA : (nameMarker ++ t.name ++ ['\n']).getLast? = some '\n' := List.getLast?_concat _
  have hB : (t.input ++ ['\n']).getLast? = some '\n' := List.getLast?_concat _
  have hC : (outMarker ++ ['\n']).getLast? = some '\n' := List.getLast?_concat _
  have hD : (t.output ++ ['\n']).getLast? = some '\n' := List.getLast?_concat _
  rw [encodeTest_assoc,
      lines_append (a := nameMarker ++ t.name ++ ['\n']) _ hA,
      lines_append (a := t.input ++ ['\n']) _ hB,
      lines_append (a := outMarker ++ ['\n']) _ hC,
      lines_append (a := t.output ++ ['\n']) _ hD,
      lines_single hnm, lines_single hom]
  rfl

/-- Processing the encoded form of a good test from any state: the
previous block is flushed and the test's fields are left pending (with the
newlines the loop accumulates before the next marker or end of file). -/
theorem encode_step {t : Test} (ht : goodTest t) (st : PState) :
    List.foldl processLine st (lines (encodeTest t)) =
      ⟨flush st, t.name, t.input ++ ['\n'], t.output ++ ['\n', '\n'], true⟩ := by
  obtain ⟨hn1, hn2, hn3, hn4, hi, ho, hic, hoc, hih, hoh⟩ := ht
  rw [lines_encodeTest ⟨hn1, hn2, hn3, hn4, hi, ho, hic, hoc, hih, hoh⟩]
  simp only [List.foldl_append, List.foldl_cons, List.foldl_nil]
  rw [show nameMarker ++ t.name ++ ['\n'] = nameMarker ++ (t.name ++ ['\n']) from by
        simp [List.append_assoc]]
  rw [mark_step st (t.name ++ ['\n'])]
  rw [strip_append_ws t.name (by intro c hc; simp at hc; subst hc; rfl), hn2]
  rw [foldl_body_in [] [] hn1 hih, lines_flatten]
  rw [out_step _ ['\n']]
  rw [show ({ (⟨flush st, t.name, [] ++ (t.input ++ ['\n']), [], false⟩ : PState) with
        inOutput := true } : PState)
      = ⟨flush st, t.name, [] ++ (t.input ++ ['\n']), [], true⟩ from rfl]
  rw [foldl_body_out _ [] hn1 hoh, lines_flatten]
  rw [@body_step ⟨flush st, t.name, [] ++ (t.input ++ ['\n']),
        [] ++ (t.output ++ ['\n']), true⟩ ['\n'] hn1 (by decide)]
  rw [if_pos (by simp : (⟨flush st, t.name, [] ++ (t.input ++ ['\n']),
        [] ++ (t.output ++ ['\n']), true⟩ : PState).inOutput = true)]
  simp [List.append_assoc]

/-- Folding the whole encoded corpus appends exactly the encoded tests. -/
theorem round_trip_aux (ts : List Test) (st : PState) (h : ∀ t ∈ ts, goodTest t) :
    flush (List.foldl processLine st (lines (save_tests ts))) = flush st ++ ts := by
  induction ts generalizing st with
  | nil =>
    show flush st = flush st ++ []
    simp
  | cons t ts ih =>
    have ht : goodTest t := h t (by simp)
    have hts : ∀ x ∈ ts, goodTest x := fun x hx => h x (List.mem_cons_of_mem t hx)
    have hsplit : save_tests (t :: ts) = encodeTest t ++ save_tests ts := by
      simp [save_tests]
    rw [hsplit, lines_append _ (encodeTest_getLast t), List.foldl_append, encode_step ht st,
        ih _ hts]
    have hout : strip (t.output ++ ['\n', '\n']) = t.output := by
      rw [show t.output ++ ['\n', '\n'] = (t.output ++ ['\n']) ++ ['\n'] from by
            simp [List.append_assoc]]
      rw [strip_append_ws _ (by intro c hc; simp at hc; subst hc; rfl)]
      rw [strip_append_ws _ (by intro c hc; simp at hc; subst hc; rfl)]
      exact ht.2.2.2.2.2.1
    have hin : strip (t.input ++ ['\n']) = t.input := by
      rw [strip_append_ws _ (by intro c hc; simp at hc; subst hc; rfl)]
      exact ht.2.2.2.2.1
    rw [@flush_pos ⟨flush st, t.name, t.input ++ ['\n'], t.output ++ ['\n', '\n'], true⟩
          ht.1]
    simp only [hin, hout]
    simp [List.append_assoc]

/-- Lines without a name marker leave an empty-name state inert (only
`in_output` may change, and the test list and pending fields stay put). -/
theorem no_marker_fold {L : List Chars} {a : List Test} {b : Bool}
    (hL : ∀ l ∈ L, nameMarker.isPrefixOf l = false) :
    ∃ b' : Bool, List.foldl processLine ⟨a, [], [], [], b⟩ L = ⟨a, [], [], [], b'⟩ := by
  induction L generalizing b with
  | nil => exact ⟨b, rfl⟩
  | cons l L ih =>
    have hl : nameMarker.isPrefixOf l = false := hL l (by simp)
    have hL' : ∀ x ∈ L, nameMarker.isPrefixOf x = false :=
      fun x hx => hL x (List.mem_cons_of_mem l hx)
    rw [List.foldl_cons]
    by_cases ho : outMarker.isPrefixOf l = true
    · rw [show processLine ⟨a, [], [], [], b⟩ l = ⟨a, [], [], [], true⟩ from by
            simp only [processLine, hl, Bool.false_eq_true, if_false, ho, if_true]]
      exact ih hL'
    · rw [show processLine ⟨a, [], [], [], b⟩ l = ⟨a, [], [], [], b⟩ from by
            simp only [processLine, hl, Bool.false_eq_true, if_false]
            rw [if_neg ho, if_neg (by simp)]]
      exact ih hL'

/-! ## Branch-resolved forms of `processLine` -/

theorem mark_step' {l : Chars} (h1 : nameMarker.isPrefixOf l = true) (st : PState) :
    processLine st l = ⟨flush st, strip (l.drop 4), [], [], false⟩ := by
  simp only [processLine]
  rw [if_pos h1]

theorem out_step' {l : Chars} (h1 : nameMarker.isPrefixOf l = false)
    (h2 : outMarker.isPrefixOf l = true) (st : PState) :
    processLine st l = { st with inOutput := true } := by
  simp only [processLine]
  rw [if_neg (by simp [h1]), if_pos h2]

theorem skip_step {l : Chars} (h1 : nameMarker.isPrefixOf l = false)
    (h2 : outMarker.isPrefixOf l = false) {st : PState}
    (h3 : ¬(st.name ≠ [] ∧ hashMarker.isPrefixOf l = false)) :
    processLine st l = st := by
  simp only [processLine]
  rw [if_neg (by simp [h1]), if_neg (by simp [h2]), if_neg h3]

theorem acc_step {l : Chars} (h1 : nameMarker.isPrefixOf l = false)
    (h2 : outMarker.isPrefixOf l = false) {st : PState}
    (hname : st.name ≠ []) (hhash : hashMarker.isPrefixOf l = false) :
    processLine st l =
      if st.inOutput then { st with output := st.output ++ l }
      else { st with input := st.input ++ l } := by
  simp only [processLine]
  rw [if_neg (by simp [h1]), if_neg (by simp [h2]), if_pos ⟨hname, hhash⟩]

/-! ## The `Rel` simulation (discarded blocks leave the parse unchanged) -/

theorem flush_rel {a : List Test} {st st' : PState} (h : Rel a st st') :
    flush st = a ++ flush st' := by
  obtain ⟨hn, hi, ho, ht, _⟩ := h
  by_cases hne : st'.name = []
  · rw [flush_neg (by rw [hn, hne]), flush_neg hne, ht]
  · rw [flush_pos (by rw [hn]; exact hne), flush_pos hne, ht, hn, hi, ho]
    simp [List.append_assoc]

theorem step_rel {a : List Test} {st st' : PState} (l : Chars) (h : Rel a st st') :
    Rel a (processLine st l) (processLine st' l) := by
  obtain ⟨hn, hi, ho, ht, hb⟩ := h
  by_cases h1 : nameMarker.isPrefixOf l = true
  · rw [mark_step' h1 st, mark_step' h1 st']
    exact ⟨rfl, rfl, rfl, flush_rel ⟨hn, hi, ho, ht, hb⟩, Or.inl rfl⟩
  · rw [Bool.not_eq_true] at h1
    by_cases h2 : outMarker.isPrefixOf l = true
    · rw [out_step' h1 h2 st, out_step' h1 h2 st']
      exact ⟨hn, hi, ho, ht, Or.inl rfl⟩
    · rw [Bool.not_eq_true] at h2
      by_cases h3 : st.name ≠ [] ∧ hashMarker.isPrefixOf l = false
      · have hbeq : st.inOutput = st'.inOutput := by
          cases hb with
          | inl h => exact h
          | inr h => exact absurd h.1 h3.1
        have h3' : st'.name ≠ [] ∧ hashMarker.isPrefixOf l = false :=
          ⟨by rw [← hn]; exact h3.1, h3.2⟩
        rw [acc_step h1 h2 h3.1 h3.2, acc_step h1 h2 h3'.1 h3'.2, hbeq]
        cases hio : st'.inOutput
        · rw [if_neg (by simp), if_neg (by simp)]
          exact ⟨hn, by rw [hi], ho, ht, Or.inl rfl⟩
        · rw [if_pos rfl, if_pos rfl]
          exact ⟨hn, hi, by rw [ho], ht, Or.inl rfl⟩
      · have h3' : ¬(st'.name ≠ [] ∧ hashMarker.isPrefixOf l = false) := by
          rw [← hn]
          exact h3
        rw [skip_step h1 h2 h3, skip_step h1 h2 h3']
        exact ⟨hn, hi, ho, ht, hb⟩

theorem fold_rel {a : List Test} (L : List Chars) {st st' : PState} (h : Rel a st st') :
    flush (List.foldl processLine st L) = a ++ flush (List.foldl processLine st' L) := by
  induction L generalizing st st' with
  | nil => exact flush_rel h
  | cons l L ih =>
    rw [List.foldl_cons, List.foldl_cons]
    exact ih (step_rel l h)

/-! ## The `chk` invariant ("no line after the first begins with `'#'`") -/

theorem chk_cons₂ (a b : Char) (r : Chars) :
    chk (a :: b :: r) = if a = '\n' ∧ b = '#' then false else chk (b :: r) := rfl

theorem chk_cons {c : Char} {t : Chars} (h : chk (c :: t) = true) : chk t = true := by
  cases t with
  | nil => rfl
  | cons d t' =>
    rw [chk_cons₂] at h
    split at h
    · cases h
    · exact h

theorem chk_append_left {x y : Chars} (h : chk (x ++ y) = true) : chk y = true := by
  induction x with
  | nil => exact h
  | cons c x ih => exact ih (chk_cons h)

theorem chk_append_right {x y : Chars} (h : chk (x ++ y) = true) : chk x = true := by
  induction x with
  | nil => rfl
  | cons c x ih =>
    cases x with
    | nil => rfl
    | cons d x' =>
      rw [List.cons_append, List.cons_append, chk_cons₂] at h
      rw [chk_cons₂]
      split at h
      · cases h
      · rename_i hnd
        rw [if_neg hnd]
        exact ih (by rw [List.cons_append]; exact h)

theorem chk_of_dropLast_nl {l : Chars} (h : '\n' ∉ l.dropLast) : chk l = true := by
  induction l with
  | nil => rfl
  | cons a t ih =>
    cases t with
    | nil => rfl
    | cons b t' =>
      rw [List.dropLast_cons₂] at h
      rw [chk_cons₂, if_neg (by rintro ⟨ha, h2⟩; exact h (by simp [ha]))]
      exact ih (fun hm => h (List.mem_cons_of_mem a hm))

theorem chk_append_line {s l : Chars} (hs : chk s = true)
    (hl1 : hashMarker.isPrefixOf l = false) (hl2 : '\n' ∉ l.dropLast) :
    chk (s ++ l) = true := by
  induction s with
  | nil => exact chk_of_dropLast_nl hl2
  | cons c s' ih =>
    cases s' with
    | nil =>
      cases l with
      | nil => rfl
      | cons d l' =>
        rw [List.cons_append, List.nil_append, chk_cons₂]
        rw [if_neg (by
          rintro ⟨hc, hd⟩
          subst hd
          rw [show hashMarker.isPrefixOf ('#' :: l') = true from by
                rw [List.isPrefixOf_iff_prefix]; exact ⟨l', rfl⟩] at hl1
          cases hl1)]
        exact chk_of_dropLast_nl hl2
    | cons d s'' =>
      rw [List.cons_append, List.cons_append, chk_cons₂]
      rw [chk_cons₂] at hs
      split at hs
      · cases hs
      · rename_i hnd
        rw [if_neg hnd]
        rw [← List.cons_append]
        exact ih hs

theorem chk_strip {s : Chars} (h : chk s = true) : chk (strip s) = true := by
  obtain ⟨u, hu⟩ := rstrip_prefix s
  have h1 : chk (rstrip s) = true := chk_append_right (x := rstrip s) (by rw [hu]; exact h)
  obtain ⟨w, hw⟩ := strip_suffix_rstrip s
  exact chk_append_left (x := w) (by rw [hw]; exact h1)

/-! ## The decode invariant (claim C10) -/

theorem flush_inv {st : PState} (h : Inv st) : ∀ t ∈ flush st, decodedOk t := by
  obtain ⟨hts, hn, hi, ho⟩ := h
  intro t htm
  by_cases hne : st.name = []
  · rw [flush_neg hne] at htm
    exact hts t htm
  · rw [flush_pos hne] at htm
    rcases List.mem_append.mp htm with hm | hm
    · exact hts t hm
    · rw [List.mem_singleton] at hm
      subst hm
      exact ⟨hne, hn, strip_idem _, strip_idem _, chk_strip hi, chk_strip ho⟩

theorem inv_step {st : PState} {l : Chars} (h : Inv st) (hl : '\n' ∉ l.dropLast) :
    Inv (processLine st l) := by
  obtain ⟨hts, hn, hi, ho⟩ := h
  by_cases h1 : nameMarker.isPrefixOf l = true
  · rw [mark_step' h1 st]
    exact ⟨flush_inv ⟨hts, hn, hi, ho⟩, strip_idem _, rfl, rfl⟩
  · rw [Bool.not_eq_true] at h1
    by_cases h2 : outMarker.isPrefixOf l = true
    · rw [out_step' h1 h2 st]
      exact ⟨hts, hn, hi, ho⟩
    · rw [Bool.not_eq_true] at h2
      by_cases h3 : st.name ≠ [] ∧ hashMarker.isPrefixOf l = false
      · rw [acc_step h1 h2 h3.1 h3.2]
        cases hio : st.inOutput
        · rw [if_neg (by simp [hio])]
          exact ⟨hts, hn, chk_append_line hi h3.2 hl, ho⟩
        · rw [if_pos rfl]
          exact ⟨hts, hn, hi, chk_append_line ho h3.2 hl⟩
      · rw [skip_step h1 h2 h3]
        exact ⟨hts, hn, hi, ho⟩

theorem inv_fold {L : List Chars} {st : PState} (h : Inv st)
    (hL : ∀ l ∈ L, '\n' ∉ l.dropLast) : Inv (List.foldl processLine st L) := by
  induction L generalizing st with
  | nil => exact h
  | cons l L ih =>
    rw [List.foldl_cons]
    exact ih (inv_step h (hL l (by simp))) fun x hx => hL x (List.mem_cons_of_mem l hx)

theorem parse_invariant (text : Chars) : ∀ t ∈ parseTests text, decodedOk t := by
  unfold parseTests
  exact flush_inv (inv_fold ⟨by intro t ht; simp [initState] at ht, rfl, rfl, rfl⟩
    fun l hl => mem_lines_nl l hl)

/-! ## Path suffix arithmetic (for `get_commands`) -/

theorem basename_append {a b : Chars} (h : '/' ∉ b) : basename (a ++ b) = basename a ++ b := by
  unfold basename
  rw [List.reverse_append]
  rw [takeWhile_append_all (p := fun c => decide (c ≠ '/')) a.reverse fun c hc =>
        decide_eq_true (show c ≠ '/' from fun heq => h (heq ▸ List.mem_reverse.mp hc))]
  rw [List.reverse_append, List.reverse_reverse]

theorem pySuffix_concrete {q e : Chars} (hb : basename q ≠ []) (he : e ≠ [])
    (hdot : '.' ∉ e) (hslash : '/' ∉ e) : pySuffix (q ++ '.' :: e) = '.' :: e := by
  have hbn : basename (q ++ '.' :: e) = basename q ++ '.' :: e :=
    basename_append (by
      intro hm
      rcases List.mem_cons.mp hm with hm | hm
      · cases hm
      · exact hslash hm)
  have hrev : (basename q ++ '.' :: e).reverse = e.reverse ++ '.' :: (basename q).reverse := by
    simp [List.reverse_append, List.append_assoc]
  have hafter : ((basename q ++ '.' :: e).reverse.takeWhile (fun c => c ≠ '.')).reverse = e := by
    rw [hrev]
    rw [takeWhile_append_all (p := fun c => decide (c ≠ '.')) ('.' :: (basename q).reverse)
          fun c hc =>
          decide_eq_true (show c ≠ '.' from fun heq => hdot (heq ▸ List.mem_reverse.mp hc))]
    rw [takeWhile_cons_false _ (by simp)]
    simp
  have hlen : (basename q ++ '.' :: e).length = (basename q).length + (e.length + 1) := by
    simp [List.length_append]
  have hbl : 0 < (basename q).length := List.length_pos.mpr hb
  simp only [pySuffix]
  rw [hbn, hafter]
  rw [if_neg (by rw [hlen]; omega), if_neg (by rw [hlen]; omega), if_neg he]

theorem extOf_concrete {q e : Chars} (hb : basename q ≠ []) (he : e ≠ [])
    (hdot : '.' ∉ e) (hslash : '/' ∉ e) : extOf (q ++ '.' :: e) = e := by
  rw [extOf, pySuffix_concrete hb he hdot hslash]
  rfl

theorem withSuffix_concrete {q e : Chars} (s : Chars) (hb : basename q ≠ []) (he : e ≠ [])
    (hdot : '.' ∉ e) (hslash : '/' ∉ e) : withSuffix (q ++ '.' :: e) s = q ++ s := by
  unfold withSuffix
  rw [pySuffix_concrete hb he hdot hslash]
  have hlen : (q ++ '.' :: e).length - ('.' :: e).length = q.length := by
    simp [List.length_append]
  rw [hlen]
  rw [List.take_left' rfl]

/-! ## The run loop -/

theorem runBody_ok_retval {env : Env} {r : RunReport} (h : runBody env = .ok r) :
    r.retval = some true := by
  unfold runBody at h
  cases hg : get_tests env with
  | error e =>
    rw [hg] at h
    cases h
  | ok ts =>
    rw [hg] at h
    dsimp only at h
    cases hl : runLoop env.exec 0 ts with
    | error e =>
      rw [hl] at h
      cases h
    | ok evs =>
      rw [hl] at h
      dsimp only at h
      cases h
      rfl

theorem runLoop_abort_aux (exec : Nat → ExecRes) (t : Test) (post : List Test)
    (bad : Chars) (pre : List Test) :
    ∀ i : Nat,
      (∀ j (hj : j < pre.length), stripRes (exec (i + j)) = some ((pre.get ⟨j, hj⟩).output)) →
      exec (i + pre.length) = .done bad → strip bad ≠ t.output →
      runLoop exec i (pre ++ t :: post) =
        .ok (pre.map (fun tc => TestEvent.pass tc.name)
          ++ [.mismatch t.name t.output (strip bad)]) := by
  induction pre with
  | nil =>
    intro i hpre ht hbad
    rw [List.nil_append]
    simp only [runLoop, show exec i = ExecRes.done bad from by simpa using ht]
    rw [if_neg hbad]
    simp
  | cons tc pre ih =>
    intro i hpre ht hbad
    have h0 : stripRes (exec i) = some tc.output := by
      have h1 := hpre 0 (by simp)
      simpa using h1
    cases hex : exec i with
    | timeout =>
      rw [hex] at h0
      cases h0
    | done raw =>
      rw [hex] at h0
      have hraw : strip raw = tc.output := by simpa [stripRes] using h0
      have hpre' : ∀ j (hj : j < pre.length),
          stripRes (exec (i + 1 + j)) = some ((pre.get ⟨j, hj⟩).output) := by
        intro j hj
        have h2 := hpre (j + 1) (by simpa using Nat.succ_lt_succ hj)
        rw [show i + (j + 1) = i + 1 + j from by omega] at h2
        simpa using h2
      have ht' : exec (i + 1 + pre.length) = .done bad := by
        rw [show i + 1 + pre.length = i + (tc :: pre).length from by simp; omega]
        exact ht
      rw [List.cons_append]
      simp only [runLoop, hex]
      simp only [hraw, if_pos rfl]
      rw [ih (i + 1) hpre' ht' hbad]
      simp

/-! ## Claims -/

/-- Claim C1, counterexample to the claim as stated: the sequence
`[Test "a" "#x" "1"]` has a non-empty name and no line of its bodies is
*equal to* either marker token (`'### '`, `'# вывод'`), yet decoding the
encoding loses the input line `"#x"` — `read_tests` skips every line that
merely *begins* with `'#'`. -/
theorem C1_claim_counterexample :
    (∀ t ∈ [(⟨chars "a", chars "#x", chars "1"⟩ : Test)],
        t.name ≠ [] ∧
        (∀ l ∈ lines t.input, l ≠ nameMarker ∧ l ≠ outMarker) ∧
        (∀ l ∈ lines t.output, l ≠ nameMarker ∧ l ≠ outMarker)) ∧
    read_tests (some (save_tests [⟨chars "a", chars "#x", chars "1"⟩]))
      ≠ some [⟨chars "a", chars "#x", chars "1"⟩] := by
  constructor <;> decide

/-- Claim C1, amended: `read_tests ∘ save_tests` is the identity on
sequences of `goodTest`s — non-empty trimmed newline- and
carriage-return-free names, trimmed carriage-return-free bodies no line of
which begins with `'#'`. -/
theorem C1_round_trip (ts : List Test) (h : ∀ t ∈ ts, goodTest t) :
    read_tests (some (save_tests ts)) = some ts := by
  show some (parseTests (save_tests ts)) = some ts
  unfold parseTests
  rw [round_trip_aux ts initState h, flush_neg rfl]
  simp [initState]

/-- Claim C1 witness: a concrete two-case corpus round-trips. -/
theorem C1_round_trip_witness :
    read_tests (some (save_tests [⟨chars "a", chars "1 2", chars "3"⟩,
        ⟨chars "b", chars "x\ny", chars "z"⟩]))
      = some [⟨chars "a", chars "1 2", chars "3"⟩, ⟨chars "b", chars "x\ny", chars "z"⟩] :=
  C1_round_trip _ (by decide)

/-- Claim C2 (code bug evidence): with a one-test cached corpus and a run
that exceeds the 2-second timeout, `subprocess.run` raises
`TimeoutExpired` and `run_tests` has no handler — the exception escapes
`run_tests` (first conjunct) and reaches the watch handler
`handle_file_change` (second conjunct) instead of being recorded as a
per-test `Timeout` outcome. -/
theorem C2_timeout_escapes :
    run_tests ⟨some (chars "### a\n1\n# вывод\n2\n"), some [], 0, fun _ => .timeout⟩
        (chars "a.py") = .error .timeoutExpired ∧
    handle_file_change ⟨some (chars "### a\n1\n# вывод\n2\n"), some [], 0, fun _ => .timeout⟩
        (chars "a.py") = some (.error .timeoutExpired) := by
  constructor <;> decide

/-- Claim C3, counterexample to the claim as stated: an all-passed run and
a run with a mismatch produce the same return value `True` (`some true`) —
`run_tests` reports the diff but returns `True` after the `break`, so no
distinct value means "at least one failed". -/
theorem C3_claim_counterexample :
    run_tests ⟨some (chars "### a\n1\n# вывод\n2\n"), some [], 0,
        fun _ => .done (chars "2\n")⟩ (chars "a.py")
      = .ok ⟨[.pass (chars "a")], some true⟩ ∧
    run_tests ⟨some (chars "### a\n1\n# вывод\n2\n"), some [], 0,
        fun _ => .done (chars "3")⟩ (chars "a.py")
      = .ok ⟨[.mismatch (chars "a") (chars "2") (chars "3")], some true⟩ := by
  constructor <;> decide

/-- Claim C3, amended: the only distinction `run_tests`'s return value
makes is compile failure — it returns `None` exactly when a compile
command exists and exits non-zero, and `True` in every other non-raising
case, whether tests passed, failed, or the corpus was empty. -/
theorem C3_retval (env : Env) (p : Chars) (r : RunReport)
    (h : run_tests env p = .ok r) :
    (r.retval = none ∨ r.retval = some true) ∧
    (r.retval = none ↔
      (∃ rc cc, get_commands p = .ok (rc, some cc)) ∧ env.compileExit ≠ 0) := by
  unfold run_tests at h
  cases hg : get_commands p with
  | error e =>
    rw [hg] at h
    cases h
  | ok pr =>
    obtain ⟨rc, cc⟩ := pr
    rw [hg] at h
    dsimp only at h
    cases cc with
    | none =>
      have hr := runBody_ok_retval h
      refine ⟨Or.inr hr, ?_⟩
      rw [hr]
      constructor
      · intro hc
        cases hc
      · rintro ⟨⟨rc', cc', hgc⟩, hce⟩
        simp at hgc
    | some cc =>
      by_cases hce : env.compileExit ≠ 0
      · rw [if_pos hce] at h
        have hr : r = ⟨[], none⟩ := by
          injection h with h2
          exact h2.symm
        subst hr
        exact ⟨Or.inl rfl, by
          constructor
          · intro _
            exact ⟨⟨rc, cc, rfl⟩, hce⟩
          · intro _
            rfl⟩
      · rw [if_neg hce] at h
        have hr := runBody_ok_retval h
        refine ⟨Or.inr hr, ?_⟩
        rw [hr]
        constructor
        · intro hc
          cases hc
        · rintro ⟨h1, hex⟩
          exact absurd hex hce

/-- Claim C3 witness: the amended characterization evaluated on the
concrete mismatching run (compile-free toolchain, so `retval = some true`
and the compile-failure condition is false). -/
theorem C3_retval_witness :
    ((RunReport.mk [.mismatch (chars "a") (chars "2") (chars "3")] (some true)).retval = none ∨
      (RunReport.mk [.mismatch (chars "a") (chars "2") (chars "3")] (some true)).retval
        = some true) ∧
    ((RunReport.mk [.mismatch (chars "a") (chars "2") (chars "3")] (some true)).retval = none ↔
      (∃ rc cc, get_commands (chars "a.py") = .ok (rc, some cc)) ∧
        (Env.mk (some (chars "### a\n1\n# вывод\n2\n")) (some []) 0
          fun _ => .done (chars "3")).compileExit ≠ 0) :=
  C3_retval ⟨some (chars "### a\n1\n# вывод\n2\n"), some [], 0, fun _ => .done (chars "3")⟩
    (chars "a.py") ⟨[.mismatch (chars "a") (chars "2") (chars "3")], some true⟩ (by decide)

/-- Claim C4, counterexample to the claim as stated: on a path with an
unregistered extension, `get_commands` raises `KeyError` (dict indexing)
rather than yielding a distinguished unknown-toolchain value; the
distinguished outcome lives in the separate pre-check
`is_file_type_known`. -/
theorem C4_claim_counterexample :
    get_commands (chars "foo.xyz") = .error .keyError ∧
    is_file_type_known (chars "foo.xyz") = false := by
  constructor <;> decide

/-- Claim C4, amended: for every path whose extension is not a registry
key, the pre-check `is_file_type_known` yields `false`, `get_commands`
itself raises `KeyError`, and both callers (`main`'s one-shot dispatch and
the watch handler) consult the pre-check first and never reach
`get_commands`, so resolution through them yields the unknown-toolchain
outcome rather than a crash. -/
theorem C4_unknown_extension (p : Chars) (h : languages (extOf p) = none) :
    is_file_type_known p = false ∧ get_commands p = .error .keyError ∧
    (∀ env : Env, one_shot env p = .unknownFileType ∧ handle_file_change env p = none) := by
  have hk : is_file_type_known p = false := by
    unfold is_file_type_known
    rw [h]
    rfl
  refine ⟨hk, ?_, ?_⟩
  · unfold get_commands
    rw [h]
  · intro env
    constructor
    · unfold one_shot
      rw [if_neg (by simp [hk])]
    · unfold handle_file_change
      rw [if_neg (by
        rintro ⟨h1, h2⟩
        rw [hk] at h2
        cases h2)]

/-- Claim C4 witness: the amended statement evaluated at `foo.xyz`. -/
theorem C4_unknown_extension_witness :
    is_file_type_known (chars "foo.xyz") = false ∧
    get_commands (chars "foo.xyz") = Except.error PyErr.keyError ∧
    one_shot ⟨none, none, 0, fun _ => .timeout⟩ (chars "foo.xyz") = .unknownFileType ∧
    handle_file_change ⟨none, none, 0, fun _ => .timeout⟩ (chars "foo.xyz") = none :=
  ⟨(C4_unknown_extension (chars "foo.xyz") rfl).1,
   (C4_unknown_extension (chars "foo.xyz") rfl).2.1,
   ((C4_unknown_extension (chars "foo.xyz") rfl).2.2 ⟨none, none, 0, fun _ => .timeout⟩).1,
   ((C4_unknown_extension (chars "foo.xyz") rfl).2.2 ⟨none, none, 0, fun _ => .timeout⟩).2⟩

/-- Claim C5: abort on first failure.  If every test before position `i`
matches (trimmed stdout = its trimmed expected output) and the run of the
test at position `i` completes with trimmed output different from its
trimmed expected output, the loop reports a pass per earlier test in
corpus order, reports the expected/actual diff for test `i`, and produces
no event for — and never executes — any later test. -/
theorem C5_abort_on_first_failure (exec : Nat → ExecRes) (pre : List Test) (t : Test)
    (post : List Test) (bad : Chars)
    (htr : ∀ tc ∈ pre ++ t :: post, strip tc.output = tc.output)
    (hpre : ∀ j (hj : j < pre.length),
      stripRes (exec j) = some (strip ((pre.get ⟨j, hj⟩).output)))
    (ht : exec pre.length = .done bad)
    (hne : strip bad ≠ strip t.output) :
    runLoop exec 0 (pre ++ t :: post) =
      .ok (pre.map (fun tc => TestEvent.pass tc.name)
        ++ [.mismatch t.name t.output (strip bad)]) := by
  have hne' : strip bad ≠ t.output := by
    rw [← htr t (by simp)]
    exact hne
  have hpre' : ∀ j (hj : j < pre.length),
      stripRes (exec (0 + j)) = some ((pre.get ⟨j, hj⟩).output) := by
    intro j hj
    rw [show (0 : Nat) + j = j from by omega]
    rw [hpre j hj, htr (pre.get ⟨j, hj⟩)
      (List.mem_append_left _ (List.get_mem pre j hj))]
  exact runLoop_abort_aux exec t post bad pre 0 hpre'
    (by rw [show (0 : Nat) + pre.length = pre.length from by omega]; exact ht) hne'

/-- Claim C5 witness: test `a` passes (trim-insensitively), test `b`
mismatches and is reported with its diff, test `c` is never run. -/
theorem C5_witness :
    runLoop (fun i => if i = 0 then ExecRes.done (chars " 5\n") else ExecRes.done (chars "7"))
        0 [⟨chars "a", chars "1", chars "5"⟩, ⟨chars "b", chars "2", chars "6"⟩,
           ⟨chars "c", chars "3", chars "9"⟩]
      = .ok [TestEvent.pass (chars "a"),
          TestEvent.mismatch (chars "b") (chars "6") (chars "7")] :=
  C5_abort_on_first_failure
    (fun i => if i = 0 then ExecRes.done (chars " 5\n") else ExecRes.done (chars "7"))
    [⟨chars "a", chars "1", chars "5"⟩] ⟨chars "b", chars "2", chars "6"⟩
    [⟨chars "c", chars "3", chars "9"⟩] (chars "7")
    (by decide) (by decide) (by decide) (by decide)

/-- Claim C6: decoding a missing sidecar file yields `None` (the "no
cached corpus" signal, the caught `FileNotFoundError`), decoding any
present text with no `'### '` block line yields the empty sequence without
error, and the two outcomes are distinct values. -/
theorem C6_missing_vs_empty :
    read_tests none = none ∧
    (∀ text : Chars, (∀ l ∈ lines text, nameMarker.isPrefixOf l = false) →
      read_tests (some text) = some []) ∧
    (∀ ts : List Test, read_tests none ≠ some ts) := by
  refine ⟨rfl, ?_, ?_⟩
  · intro text hl
    show some (parseTests text) = some []
    unfold parseTests
    rw [show initState = (⟨[], [], [], [], false⟩ : PState) from rfl]
    obtain ⟨b, hb⟩ := no_marker_fold (a := []) (b := false) hl
    rw [hb, flush_neg rfl]
  · intro ts h
    exact Option.noConfusion h

/-- Claim C6 witness: a marker-free text decodes to the empty corpus while
the missing file decodes to `None`. -/
theorem C6_witness :
    read_tests (some (chars "junk\n# вывод\nstuff\n")) = some [] ∧
    read_tests none = none :=
  ⟨C6_missing_vs_empty.2.1 (chars "junk\n# вывод\nstuff\n") (by decide),
   C6_missing_vs_empty.1⟩

/-- Claim C7: resolution for every registered extension, for any path
`q ++ "." ++ ext` whose stem has a non-empty final component.  Interpreted
entries (`js`, `php`, `py`, `rb`) yield `interpreter + ' ' + path` and no
compile command; compiled entries yield a non-`None` compile command and a
run command referencing the artifact derived by the documented
extension-replacement rule: the suffix stripped (`c`, `cpp`, `d`, `pas`,
`scala`), replaced by `.exe` (`cs`), or replaced by `.jar` (`kt`). -/
theorem C7_toolchain_resolution (q : Chars) (h : basename q ≠ []) :
    (get_commands (q ++ chars ".js") = .ok (chars "node " ++ (q ++ chars ".js"), none)) ∧
    (get_commands (q ++ chars ".php") = .ok (chars "php " ++ (q ++ chars ".php"), none)) ∧
    (get_commands (q ++ chars ".py") = .ok (chars "python3 " ++ (q ++ chars ".py"), none)) ∧
    (get_commands (q ++ chars ".rb") = .ok (chars "ruby " ++ (q ++ chars ".rb"), none)) ∧
    (get_commands (q ++ chars ".c") = .ok (q,
      some (chars "gcc --std=gnu11 -lm -o " ++ q ++ chars " " ++ (q ++ chars ".c")))) ∧
    (get_commands (q ++ chars ".cpp") = .ok (q,
      some (chars "g++ " ++ (q ++ chars ".cpp") ++ chars " -lm -o " ++ q))) ∧
    (get_commands (q ++ chars ".cs") = .ok (q ++ chars ".exe",
      some (chars "mcs " ++ (q ++ chars ".cs")))) ∧
    (get_commands (q ++ chars ".d") = .ok (q, some (chars "dmd " ++ (q ++ chars ".d")))) ∧
    (get_commands (q ++ chars ".kt") = .ok (chars "java -jar " ++ (q ++ chars ".jar"),
      some (chars "kotlinc " ++ (q ++ chars ".kt") ++ chars " -include-runtime -d "
        ++ (q ++ chars ".jar")))) ∧
    (get_commands (q ++ chars ".pas") = .ok (q,
      some (chars "fpc " ++ (q ++ chars ".pas")))) ∧
    (get_commands (q ++ chars ".scala") = .ok (chars "scala " ++ q,
      some (chars "scalac " ++ (q ++ chars ".scala")))) := by
  refine ⟨?_, ?_, ?_, ?_, ?_, ?_, ?_, ?_, ?_, ?_, ?_⟩
  · rw [show (chars ".js" : Chars) = '.' :: chars "js" from rfl]
    unfold get_commands
    rw [extOf_concrete (e := chars "js") h (by decide) (by decide) (by decide)]
    rw [show languages (chars "js") = some (ToolEntry.interp (chars "node")) from rfl]
    rfl
  · rw [show (chars ".php" : Chars) = '.' :: chars "php" from rfl]
    unfold get_commands
    rw [extOf_concrete (e := chars "php") h (by decide) (by decide) (by decide)]
    rw [show languages (chars "php") = some (ToolEntry.interp (chars "php")) from rfl]
    rfl
  · rw [show (chars ".py" : Chars) = '.' :: chars "py" from rfl]
    unfold get_commands
    rw [extOf_concrete (e := chars "py") h (by decide) (by decide) (by decide)]
    rw [show languages (chars "py") = some (ToolEntry.interp (chars "python3")) from rfl]
    rfl
  · rw [show (chars ".rb" : Chars) = '.' :: chars "rb" from rfl]
    unfold get_commands
    rw [extOf_concrete (e := chars "rb") h (by decide) (by decide) (by decide)]
    rw [show languages (chars "rb") = some (ToolEntry.interp (chars "ruby")) from rfl]
    rfl
  · rw [show (chars ".c" : Chars) = '.' :: chars "c" from rfl]
    unfold get_commands
    rw [extOf_concrete (e := chars "c") h (by decide) (by decide) (by decide)]
    rw [show languages (chars "c") = some (ToolEntry.compiled fun src =>
        (withSuffix src [], chars "gcc --std=gnu11 -lm -o " ++ withSuffix src []
          ++ chars " " ++ src)) from rfl]
    dsimp only
    rw [withSuffix_concrete (e := chars "c") [] h (by decide) (by decide) (by decide)]
    simp
  · rw [show (chars ".cpp" : Chars) = '.' :: chars "cpp" from rfl]
    unfold get_commands
    rw [extOf_concrete (e := chars "cpp") h (by decide) (by decide) (by decide)]
    rw [show languages (chars "cpp") = some (ToolEntry.compiled fun src =>
        (withSuffix src [], chars "g++ " ++ src ++ chars " -lm -o " ++ withSuffix src [])) from rfl]
    dsimp only
    rw [withSuffix_concrete (e := chars "cpp") [] h (by decide) (by decide) (by decide)]
    simp
  · rw [show (chars ".cs" : Chars) = '.' :: chars "cs" from rfl]
    unfold get_commands
    rw [extOf_concrete (e := chars "cs") h (by decide) (by decide) (by decide)]
    rw [show languages (chars "cs") = some (ToolEntry.compiled fun src =>
        (withSuffix src (chars ".exe"), chars "mcs " ++ src)) from rfl]
    dsimp only
    rw [withSuffix_concrete (e := chars "cs") (chars ".exe") h (by decide) (by decide) (by decide)]
  · rw [show (chars ".d" : Chars) = '.' :: chars "d" from rfl]
    unfold get_commands
    rw [extOf_concrete (e := chars "d") h (by decide) (by decide) (by decide)]
    rw [show languages (chars "d") = some (ToolEntry.compiled fun src => (withSuffix src [], chars "dmd " ++ src)) from rfl]
    dsimp only
    rw [withSuffix_concrete (e := chars "d") [] h (by decide) (by decide) (by decide)]
    simp
  · rw [show (chars ".kt" : Chars) = '.' :: chars "kt" from rfl]
    unfold get_commands
    rw [extOf_concrete (e := chars "kt") h (by decide) (by decide) (by decide)]
    rw [show languages (chars "kt") = some (ToolEntry.compiled fun src =>
        (chars "java -jar " ++ withSuffix src (chars ".jar"),
         chars "kotlinc " ++ src ++ chars " -include-runtime -d "
           ++ withSuffix src (chars ".jar"))) from rfl]
    dsimp only
    rw [withSuffix_concrete (e := chars "kt") (chars ".jar") h (by decide) (by decide) (by decide)]
  · rw [show (chars ".pas" : Chars) = '.' :: chars "pas" from rfl]
    unfold get_commands
    rw [extOf_concrete (e := chars "pas") h (by decide) (by decide) (by decide)]
    rw [show languages (chars "pas") = some (ToolEntry.compiled fun src => (withSuffix src [], chars "fpc " ++ src)) from rfl]
    dsimp only
    rw [withSuffix_concrete (e := chars "pas") [] h (by decide) (by decide) (by decide)]
    simp
  · rw [show (chars ".scala" : Chars) = '.' :: chars "scala" from rfl]
    unfold get_commands
    rw [extOf_concrete (e := chars "scala") h (by decide) (by decide) (by decide)]
    rw [show languages (chars "scala") = some (ToolEntry.compiled fun src =>
        (chars "scala " ++ withSuffix src [], chars "scalac " ++ src)) from rfl]
    dsimp only
    rw [withSuffix_concrete (e := chars "scala") [] h (by decide) (by decide) (by decide)]
    simp

/-- Claim C7 witness: resolution at the concrete stem `dir/main` for an
interpreted (`py`) and a compiled (`kt`) toolchain. -/
theorem C7_witness :
    get_commands (chars "dir/main" ++ chars ".py")
      = .ok (chars "python3 " ++ (chars "dir/main" ++ chars ".py"), none) ∧
    get_commands (chars "dir/main" ++ chars ".kt")
      = .ok (chars "java -jar " ++ (chars "dir/main" ++ chars ".jar"),
          some (chars "kotlinc " ++ (chars "dir/main" ++ chars ".kt")
            ++ chars " -include-runtime -d " ++ (chars "dir/main" ++ chars ".jar"))) :=
  ⟨(C7_toolchain_resolution (chars "dir/main") (by decide)).2.2.1,
   (C7_toolchain_resolution (chars "dir/main") (by decide)).2.2.2.2.2.2.2.2.1⟩

/-- Claim C8: the watch handler discards a change notification exactly
when the file is hidden (name begins with `'.'`), carries the backup
marker `'#'` in its name, or has an extension absent from the registry;
for every other path it invokes the engine (`run_tests`) on that path. -/
theorem C8_change_filter (env : Env) (p : Chars) :
    (handle_file_change env p = none ↔
      (['.'].isPrefixOf (basename p) = true ∨ (basename p).elem '#' = true ∨
        languages (extOf p) = none)) ∧
    (handle_file_change env p = some (run_tests env p) ↔
      (['.'].isPrefixOf (basename p) = false ∧ (basename p).elem '#' = false ∧
        (languages (extOf p)).isSome = true)) := by
  unfold handle_file_change is_ignored is_file_type_known
  by_cases hc : (['.'].isPrefixOf (basename p) || (basename p).elem '#') = false ∧
      (languages (extOf p)).isSome = true
  · rw [if_pos hc]
    obtain ⟨ho, hk⟩ := hc
    rw [Bool.or_eq_false_iff] at ho
    constructor
    · constructor
      · intro h
        exact Option.noConfusion h
      · rintro (h | h | h)
        · rw [ho.1] at h
          cases h
        · rw [ho.2] at h
          cases h
        · rw [h] at hk
          cases hk
    · constructor
      · intro _
        exact ⟨ho.1, ho.2, hk⟩
      · intro _
        rfl
  · rw [if_neg hc]
    constructor
    · constructor
      · intro _
        by_cases h1 : ['.'].isPrefixOf (basename p) = true
        · exact Or.inl h1
        · by_cases h2 : (basename p).elem '#' = true
          · exact Or.inr (Or.inl h2)
          · refine Or.inr (Or.inr ?_)
            rw [Bool.not_eq_true] at h1 h2
            have hor : (['.'].isPrefixOf (basename p) || (basename p).elem '#') = false := by
              rw [h1, h2]
              rfl
            have hk : ¬((languages (extOf p)).isSome = true) := fun hk => hc ⟨hor, hk⟩
            cases hq : languages (extOf p) with
            | none => rfl
            | some v =>
              rw [hq] at hk
              exact absurd rfl hk
      · intro _
        rfl
    · constructor
      · intro h
        exact Option.noConfusion h
      · rintro ⟨h1, h2, h3⟩
        exact absurd ⟨by rw [h1, h2]; rfl, h3⟩ hc

/-- Claim C9: a block whose `'### '` line has only whitespace after the
marker is discarded entirely — parsing the text around it gives exactly
the tests of the part before it followed by the tests of the part after
it; nothing of the empty-name block (its whitespace name or its body up to
the next marker) reaches any `TestCase`. -/
theorem C9_empty_name_discarded (pre w body suffix : Chars)
    (hpre : pre = [] ∨ pre.getLast? = some '\n')
    (hw : ∀ c ∈ w, wsB c = true) (hwn : '\n' ∉ w)
    (hbody : ∀ l ∈ lines body, nameMarker.isPrefixOf l = false)
    (hbend : body = [] ∨ body.getLast? = some '\n') :
    parseTests (pre ++ (nameMarker ++ w ++ ['\n']) ++ body ++ suffix)
      = parseTests pre ++ parseTests suffix := by
  have hM : '\n' ∉ nameMarker ++ w := by
    intro hm
    rcases List.mem_append.mp hm with hh | hh
    · simp [nameMarker] at hh
    · exact hwn hh
  have hassoc : pre ++ (nameMarker ++ w ++ ['\n']) ++ body ++ suffix
      = pre ++ (((nameMarker ++ w) ++ ['\n']) ++ (body ++ suffix)) := by
    simp [List.append_assoc]
  rw [hassoc]
  unfold parseTests
  rw [lines_append' _ hpre,
      lines_append (a := (nameMarker ++ w) ++ ['\n']) _ (List.getLast?_concat _),
      lines_append' _ hbend,
      lines_single hM]
  simp only [List.foldl_append, List.foldl_cons, List.foldl_nil]
  rw [show (nameMarker ++ w) ++ ['\n'] = nameMarker ++ (w ++ ['\n']) from by
        simp [List.append_assoc]]
  rw [mark_step _ (w ++ ['\n'])]
  rw [strip_allws (by
    intro c hc
    rcases List.mem_append.mp hc with hh | hh
    · exact hw c hh
    · simp at hh
      subst hh
      rfl)]
  obtain ⟨b, hb⟩ :=
    no_marker_fold (a := flush (List.foldl processLine initState (lines pre)))
      (b := false) hbody
  rw [hb]
  exact fold_rel (lines suffix)
    ⟨rfl, rfl, rfl, by simp [initState], Or.inr ⟨rfl, rfl, rfl⟩⟩

/-- Claim C9 witness: an empty-name block (`'### '` + whitespace) with a
body line `junk` between two real blocks contributes nothing. -/
theorem C9_witness :
    parseTests (chars "### x\n1\n# вывод\n2\n" ++ (nameMarker ++ chars " " ++ ['\n'])
        ++ chars "junk\n" ++ chars "### y\n3\n# вывод\n4\n")
      = parseTests (chars "### x\n1\n# вывод\n2\n")
        ++ parseTests (chars "### y\n3\n# вывод\n4\n") :=
  C9_empty_name_discarded _ _ _ _ (by decide) (by decide) (by decide) (by decide) (by decide)

/-- Claim C10, counterexample to the claim as stated: the text
`"### a\n #x\n# вывод\n1\n"` decodes to a `TestCase` whose input is
`"#x"` — leading whitespace was stripped, so the input's first line
*does* begin with `'#'`. -/
theorem C10_claim_counterexample :
    parseTests (chars "### a\n #x\n# вывод\n1\n")
      = [⟨chars "a", chars "#x", chars "1"⟩] ∧
    (parseTests (chars "### a\n #x\n# вывод\n1\n")).any
      (fun t => (lines t.input).any (fun l => hashMarker.isPrefixOf l)) = true := by
  constructor <;> decide

/-- Claim C10, amended: every decoded test has a non-empty trimmed name
and trimmed bodies, and no line **after the first** of either body begins
with `'#'` (`chk` forbids `'#'` right after `'\n'`); the first line can
begin with `'#'` after leading-whitespace stripping. -/
theorem C10_decode_invariant (text : Chars) :
    ∀ t ∈ parseTests text, t.name ≠ [] ∧ strip t.name = t.name ∧
      strip t.input = t.input ∧ strip t.output = t.output ∧
      chk t.input = true ∧ chk t.output = true :=
  parse_invariant text

/-- Claim C10 witness: the invariant evaluated on the decoded quirk case
(note `chk "#x" = true`: its `'#'` is on the first line). -/
theorem C10_witness :
    (⟨chars "a", chars "#x", chars "1"⟩ : Test)
        ∈ parseTests (chars "### a\n #x\n# вывод\n1\n") ∧
    ((chars "a" : Chars) ≠ [] ∧ strip (chars "a") = chars "a" ∧
      strip (chars "#x") = chars "#x" ∧ strip (chars "1") = chars "1" ∧
      chk (chars "#x") = true ∧ chk (chars "1") = true) :=
  ⟨by decide, C10_decode_invariant (chars "### a\n #x\n# вывод\n1\n")
    ⟨chars "a", chars "#x", chars "1"⟩ (by decide)⟩

end Cfrun

